import Mathlib

/-!
Shallow embedding of the lazarus versioned store (`src/utils/storage.js`) and
the classification logic of the background worker.

JavaScript objects keyed by strings are modelled as association lists
`List (String × α)`: `Object.entries` iteration order is insertion order,
lookup/assignment/`delete` act on the (unique) first occurrence of a key, and a
freshly assigned key is appended at the end.  Timestamps are `Int`.  The
`chrome.storage.local.getBytesInUse` measurement is an external, approximate
function of the persisted blob and is modelled as an explicit parameter
`measure : Store → Nat`.
-/

namespace Lazarus

/-- Lookup of `obj[k]` (first matching key). -/
def alGet {α : Type} (k : String) : List (String × α) → Option α
  | [] => none
  | kv :: t => if kv.1 = k then some kv.2 else alGet k t

/-- Assignment `obj[k] = v`: replaces the value of an existing key in place,
otherwise appends the new key at the end (JS property insertion order). -/
def alSet {α : Type} (k : String) (v : α) : List (String × α) → List (String × α)
  | [] => [(k, v)]
  | kv :: t => if kv.1 = k then (k, v) :: t else kv :: alSet k v t

/-- Deletion `delete obj[k]`. -/
def alErase {α : Type} (k : String) : List (String × α) → List (String × α)
  | [] => []
  | kv :: t => if kv.1 = k then t else kv :: alErase k t

/-- One stored version `{ts, text}`. -/
structure Version where
  ts : Int
  text : String
deriving DecidableEq, Inhabited, Repr

/-- A field record `{label, lastUpdated, versions}`. -/
structure FieldData where
  label : String
  lastUpdated : Int
  versions : List Version
deriving DecidableEq, Inhabited, Repr

/-- The persisted blob: `host → path → selector → FieldData`. -/
abbrev Store := List (String × List (String × List (String × FieldData)))

/-- Constant `MAX_STORAGE_BYTES = 5 * 1024 * 1024`. -/
def MAX_STORAGE_BYTES : Nat := 5 * 1024 * 1024

/-- Constant `MAX_VERSIONS_PER_FIELD = 10`. -/
def MAX_VERSIONS_PER_FIELD : Nat := 10

/-- Constant `SIGNIFICANT_CHANGE_THRESHOLD = 10`. -/
def SIGNIFICANT_CHANGE_THRESHOLD : Nat := 10

/-- The test `stats.percentage >= SAFETY_MARGIN * 100` for
`percentage = (bytesInUse / MAX_STORAGE_BYTES) * 100` and `SAFETY_MARGIN = 0.9`,
as the exact rational comparison `bytesInUse * 10 ≥ 9 * MAX_STORAGE_BYTES`. -/
def pctGE90 (bytesInUse : Nat) : Bool :=
  decide (9 * MAX_STORAGE_BYTES ≤ 10 * bytesInUse)

/-- `getFieldData(host, path, selector)`: `data[host]?.[path]?.[selector] || null`. -/
def getFieldData (data : Store) (host path selector : String) : Option FieldData :=
  (alGet host data).bind fun paths => (alGet path paths).bind fun fields =>
    alGet selector fields

/-- The write `data[host][path][selector] = fd` (after `data[host] ||= {}` and
`data[host][path] ||= {}`). -/
def setField (data : Store) (host path selector : String) (fd : FieldData) : Store :=
  let paths := (alGet host data).getD []
  let fields := (alGet path paths).getD []
  alSet host (alSet path (alSet selector fd fields) paths) data

/-- Arguments of one `saveFieldData` call. -/
structure SaveParams where
  host : String
  path : String
  selector : String
  label : String
  text : String
  timestamp : Int
  isSignificantChange : Bool
deriving DecidableEq, Inhabited, Repr

/-- The append-or-amend branch of `saveFieldData` on the versions list alone:
significant (or empty history) pushes `{ts, text}` and trims to the last 10
with `slice(-10)`, otherwise the last version's `ts` and `text` are overwritten
in place (the inner `length > 0` guard of the source is kept). -/
def applyVersions (p : SaveParams) (vs : List Version) : List Version :=
  if p.isSignificantChange || vs.isEmpty then
    let vs2 := vs ++ [{ ts := p.timestamp, text := p.text }]
    if MAX_VERSIONS_PER_FIELD < vs2.length then
      vs2.drop (vs2.length - MAX_VERSIONS_PER_FIELD)
    else vs2
  else
    if 0 < vs.length then
      vs.set (vs.length - 1) { ts := p.timestamp, text := p.text }
    else vs

/-- The record written back by `saveFieldData` as a function of the looked-up
record: a fresh `{label, lastUpdated: timestamp, versions: []}` when the key is
new, the label overwritten only when the supplied `label` is truthy (nonempty),
`lastUpdated` always set to the incoming timestamp, and the append-or-amend
rule on the versions. -/
def coreField (p : SaveParams) (old : Option FieldData) : FieldData :=
  let fd0 : FieldData :=
    match old with
    | some fd => fd
    | none => { label := p.label, lastUpdated := p.timestamp, versions := [] }
  { label := if p.label ≠ "" then p.label else fd0.label
    lastUpdated := p.timestamp
    versions := applyVersions p fd0.versions }

/-- The versions list the looked-up record contributes (empty when absent). -/
def oldVersions (old : Option FieldData) : List Version :=
  match old with
  | some fd => fd.versions
  | none => []

/-- The body of `saveFieldData` after the quota check: read-modify-write of the
one addressed field record (storage.js lines 57-96). -/
def saveFieldCore (p : SaveParams) (data : Store) : Store :=
  setField data p.host p.path p.selector
    (coreField p (getFieldData data p.host p.path p.selector))

/-- `findOldestDomain(data)`: full scan keeping the first host owning a field
with the strictly smallest `lastUpdated` (initial best is `Infinity`). -/
def hostFieldTimes (data : Store) : List (String × Int) :=
  data.flatMap fun hp => hp.2.flatMap fun pf => pf.2.map fun sf => (hp.1, sf.2.lastUpdated)

/-- One comparison step of the `findOldestDomain` scan: the accumulator is the
best `(host, lastUpdated)` so far (`none` is the initial `Infinity`), and only
a strictly smaller `lastUpdated` replaces it (first host wins ties). -/
def oldStep (acc : Option (String × Int)) (ht : String × Int) :
    Option (String × Int) :=
  match acc with
  | none => some ht
  | some best => if ht.2 < best.2 then some ht else some best

/-- `findOldestDomain` returns the owning host of the globally oldest field, or
`null` when no field exists. -/
def findOldestDomain (data : Store) : Option String :=
  ((hostFieldTimes data).foldl oldStep none).map Prod.fst

/-- Result of one `ensureStorageSpace` pass: the persisted blob afterwards, the
number of evicted hosts, and whether `saveAllData` was invoked. -/
structure EvictResult where
  store : Store
  evicted : Nat
  wrote : Bool
deriving DecidableEq, Inhabited, Repr

/-- The eviction `while` loop of `ensureStorageSpace`.  The blob is not written
during the loop, so both `stats.percentage` (hoisted before the loop) and every
in-loop `getStorageStats()` re-measurement observe the byte count `ms` of the
store the pass entered with.  The falsy test `if (!oldestDomain) break` fires
both on `null` and on the empty-string host.  `fuel` is `10 - evicted`, so the
fuel-exhaustion base case coincides with the `evicted < 10` guard failing. -/
def evictLoop (ms : Nat) : Nat → Store → Nat → Store × Nat
  | 0, data, evicted => (data, evicted)
  | fuel + 1, data, evicted =>
    if pctGE90 ms && decide (evicted < 10) then
      match findOldestDomain data with
      | none => (data, evicted)
      | some host =>
        if host = "" then (data, evicted)
        else
          let data2 := alErase host data
          if pctGE90 ms then evictLoop ms fuel data2 (evicted + 1)
          else (data2, evicted + 1)
    else (data, evicted)

/-- `ensureStorageSpace()`: measure the persisted blob, return untouched when
under the 90% threshold, otherwise run the eviction loop and write the surviving
data back only when at least one host was evicted. -/
def ensureStorageSpace (measure : Store → Nat) (s : Store) : EvictResult :=
  let ms := measure s
  if pctGE90 ms then
    let r := evictLoop ms 10 s 0
    if 0 < r.2 then { store := r.1, evicted := r.2, wrote := true }
    else { store := s, evicted := r.2, wrote := false }
  else { store := s, evicted := 0, wrote := false }

/-- `saveFieldData`: quota pass against the persisted blob, then the
read-modify-write of the addressed field. -/
def saveFieldData (measure : Store → Nat) (p : SaveParams) (s : Store) : Store :=
  saveFieldCore p (ensureStorageSpace measure s).store

/-- Fold of a sequence of `saveFieldData` calls. -/
def applySaves (measure : Store → Nat) (ops : List SaveParams) (s : Store) : Store :=
  ops.foldl (fun st p => saveFieldData measure p st) s

/-- Levenshtein distance (unit cost insert/delete/substitute), the distance
computed by `fast-levenshtein`.  Structural recursion on a fuel argument so the
kernel can evaluate it; `fuel = |a| + |b|` always suffices because every
recursive call shortens the combined input. -/
def levFuel : Nat → List Char → List Char → Nat
  | _, [], bs => bs.length
  | _, a :: as, [] => (a :: as).length
  | 0, _, _ => 0
  | fuel + 1, a :: as, b :: bs =>
    if a = b then levFuel fuel as bs
    else 1 + min (levFuel fuel as (b :: bs)) (min (levFuel fuel (a :: as) bs) (levFuel fuel as bs))

/-- Levenshtein distance between two strings. -/
def lev (a b : String) : Nat :=
  levFuel (a.data.length + b.data.length) a.data b.data

/-- The classification made by `processInput`: significant unless the existing
record has a last version within distance threshold of the new value
(`lastVersion.text || ''` is the identity on the stored string). -/
def classifyInput (s : Store) (host path selector value : String) : Bool :=
  match getFieldData s host path selector with
  | none => true
  | some fd =>
    match fd.versions.getLast? with
    | none => true
    | some lastV => decide (SIGNIFICANT_CHANGE_THRESHOLD ≤ lev lastV.text value)

/-- `processInput`: classify against the current store, then save. -/
def processInput (measure : Store → Nat) (host path selector label value : String)
    (timestamp : Int) (s : Store) : Store :=
  saveFieldData measure
    { host := host, path := path, selector := selector, label := label,
      text := value, timestamp := timestamp,
      isSignificantChange := classifyInput s host path selector value } s

/-- `deleteField` / the empty-field branch of `deleteEntryById`: remove the
selector, then prune the path map if it became empty, then the host map. -/
def pruneDelete (data : Store) (host path selector : String) : Store :=
  match alGet host data with
  | none => data
  | some paths =>
    match alGet path paths with
    | none => data
    | some fields =>
      let fields2 := alErase selector fields
      let paths2 := if fields2.isEmpty then alErase path paths else alSet path fields2 paths
      if paths2.isEmpty then alErase host data else alSet host paths2 data

/-- `deleteField(host, path, selector)`: no-op when the field is absent. -/
def deleteField (host path selector : String) (data : Store) : Store :=
  match getFieldData data host path selector with
  | none => data
  | some _ => pruneDelete data host path selector

/-- JS `String.prototype.split` with a one-character separator. -/
def splitChar (sep : Char) : List Char → List (List Char)
  | [] => [[]]
  | c :: cs =>
    let r := splitChar sep cs
    if c = sep then [] :: r
    else
      match r with
      | [] => [[c]]
      | h :: t => (c :: h) :: t

/-- JS `Array.prototype.join` with a one-character separator. -/
def joinChar (sep : Char) : List (List Char) → List Char
  | [] => []
  | [x] => x
  | x :: xs => x ++ sep :: joinChar sep xs

/-- Decimal digit character. -/
def digitChar (d : Nat) : Char :=
  if d = 0 then '0' else if d = 1 then '1' else if d = 2 then '2'
  else if d = 3 then '3' else if d = 4 then '4' else if d = 5 then '5'
  else if d = 6 then '6' else if d = 7 then '7' else if d = 8 then '8' else '9'

/-- Decimal rendering of a natural number, big-endian; fuel-structural so the
kernel can evaluate it (`fuel = n + 1` always suffices since `n / 10 < n`). -/
def natToCharsAux : Nat → Nat → List Char
  | 0, _ => []
  | fuel + 1, n =>
    if n < 10 then [digitChar n]
    else natToCharsAux fuel (n / 10) ++ [digitChar (n % 10)]

/-- Decimal rendering of a natural number (the JS `${versionIndex}`). -/
def natToChars (n : Nat) : List Char := natToCharsAux (n + 1) n

/-- The entry id `${host}|${path}|${selector}|${versionIndex}`. -/
def mkEntryId (host path selector : String) (i : Nat) : String :=
  host ++ "|" ++ path ++ "|" ++ selector ++ "|" ++ String.mk (natToChars i)

/-- Value of a big-endian digit-character list. -/
def digitsVal (ds : List Char) : Nat :=
  ds.foldl (fun a c => 10 * a + (c.toNat - 48)) 0

/-- Leading-digit parse of a character list: `none` models `NaN`. -/
def parseDigits (cs : List Char) : Option Nat :=
  let ds := cs.takeWhile Char.isDigit
  if ds.isEmpty then none else some (digitsVal ds)

/-- ES `parseInt(s, 10)`: skip whitespace, optional sign, leading decimal
digits, `NaN` (`none`) when no digit follows. -/
def parseIntJS (s : String) : Option Int :=
  match s.data.dropWhile Char.isWhitespace with
  | [] => none
  | c :: rest =>
    if c = '-' then (parseDigits rest).map fun n => -(n : Int)
    else if c = '+' then (parseDigits rest).map fun n => (n : Int)
    else (parseDigits (c :: rest)).map fun n => (n : Int)

/-- The parse result of `parseEntryId`.  A missing `parts[0]` / `parts[1]` is
the JS `undefined`, which the subsequent `data[...]` lookups coerce to the
property key `"undefined"`; a `NaN` version index is `none`. -/
structure ParsedId where
  host : String
  path : String
  selector : String
  versionIndex : Option Int
deriving DecidableEq, Inhabited, Repr

/-- `parseEntryId(id)`: split on `'|'`, pop the last part as the version index,
take `parts[0]` / `parts[1]` as host / path and rejoin the rest as selector. -/
def parseEntryId (id : String) : ParsedId :=
  let parts := splitChar '|' id.data
  let idxChars := parts.getLastD []
  let rest := parts.dropLast
  { host := String.mk (rest.getD 0 "undefined".data)
    path := String.mk (rest.getD 1 "undefined".data)
    selector := String.mk (joinChar '|' (rest.drop 2))
    versionIndex := parseIntJS (String.mk idxChars) }

/-- The start index actually used by `versions.splice(versionIndex, 1)`:
`ToIntegerOrInfinity(NaN) = 0`, a negative start counts from the end clamped at
`0`, a non-negative start is clamped at `len`. -/
def jsSpliceStart (idx : Option Int) (len : Nat) : Nat :=
  match idx with
  | none => 0
  | some i => if i < 0 then ((len : Int) + i).toNat else min i.toNat len

/-- `deleteEntryById(id)`: parse, bail out when the addressed record is absent,
splice out the version, then either prune the emptied field or refresh
`lastUpdated` from the new last version. -/
def deleteEntryById (id : String) (data : Store) : Store :=
  let p := parseEntryId id
  match getFieldData data p.host p.path p.selector with
  | none => data
  | some fd =>
    let start := jsSpliceStart p.versionIndex fd.versions.length
    let vs := fd.versions.eraseIdx start
    if vs.length = 0 then
      pruneDelete data p.host p.path p.selector
    else
      setField data p.host p.path p.selector
        { fd with versions := vs, lastUpdated := (vs.getLastD default).ts }

/-- One flat entry.  The JS object carries `id, host, path, selector, label,
timestamp, text`; `versionIndex` records in addition the index the entry was
built from (in JS it is embedded only inside `id`), so that the addressing
round-trip can be stated. -/
structure Entry where
  id : String
  host : String
  path : String
  selector : String
  label : String
  timestamp : Int
  text : String
  versionIndex : Nat
deriving DecidableEq, Inhabited, Repr

/-- The entries pushed for one field record (`versions.forEach`), with
`fieldData.label || 'Untitled'` and the identity `version.text || ''`. -/
def fieldEntries (host path selector : String) (fd : FieldData) : List Entry :=
  fd.versions.enum.map fun iv =>
    { id := mkEntryId host path selector iv.1
      host := host
      path := path
      selector := selector
      label := if fd.label = "" then "Untitled" else fd.label
      timestamp := iv.2.ts
      text := iv.2.text
      versionIndex := iv.1 }

/-- The nested iteration of `getAllEntriesFlat` before sorting. -/
def allEntries (data : Store) : List Entry :=
  data.flatMap fun hp => hp.2.flatMap fun pf => pf.2.flatMap fun sf =>
    fieldEntries hp.1 pf.1 sf.1 sf.2

/-- The comparator `(a, b) => b.timestamp - a.timestamp`: `a` precedes `b`
exactly when the comparator is non-positive. -/
def entryLE (a b : Entry) : Bool := decide (b.timestamp ≤ a.timestamp)

/-- `getAllEntriesFlat()`: flatten, then stable-sort newest first. -/
def getAllEntriesFlat (data : Store) : List Entry :=
  (allEntries data).mergeSort entryLE

/-- Predicate: every field record of the store satisfies `P`. -/
def allFields (P : FieldData → Bool) (s : Store) : Bool :=
  s.all fun hp => hp.2.all fun pf => pf.2.all fun sf => P sf.2

/-- Version-cap predicate of §8: every field holds at most 10 versions. -/
def capOK (s : Store) : Bool :=
  allFields (fun fd => decide (fd.versions.length ≤ MAX_VERSIONS_PER_FIELD)) s

/-- One record's `lastUpdated` agrees with its last version's timestamp
(vacuously when the record has no versions). -/
def luField (fd : FieldData) : Bool :=
  match fd.versions.getLast? with
  | none => true
  | some v => decide (fd.lastUpdated = v.ts)

/-- Store-wide `lastUpdated` invariant. -/
def luInv (s : Store) : Bool := allFields luField s

/-- No empty subgroup map and no empty group map. -/
def noEmpty (s : Store) : Bool :=
  s.all fun hp => decide (hp.2 ≠ []) && hp.2.all fun pf => decide (pf.2 ≠ [])

/-- Every group key is a nonempty string. -/
def hostsNE (s : Store) : Bool := s.all fun hp => decide (hp.1 ≠ "")

/-- Group keys are pairwise distinct (automatic for a JS object). -/
def hostsNodup (s : Store) : Prop := (s.map Prod.fst).Nodup

/-- No group key and no subgroup key contains the id delimiter. -/
def noPipeKeys (s : Store) : Bool :=
  s.all fun hp => decide ('|' ∉ hp.1.data) && hp.2.all fun pf => decide ('|' ∉ pf.1.data)

/-- C3 counterexample store: a single group keyed by the empty string. -/
def emptyKeyStore : Store := [("", [("p", [("s", ⟨"l", 5, [⟨5, "t"⟩]⟩)])])]

/-- C3 counterexample measurement: reports the blob at capacity unless it is
empty. -/
def fullMeasure : Store → Nat := fun st => if st.isEmpty then 0 else MAX_STORAGE_BYTES

/-- C4 counterexample store: a group key containing the id delimiter. -/
def pipeKeyStore : Store := [("a|b", [("p", [("s", ⟨"l", 5, [⟨5, "t"⟩]⟩)])])]

/-- C5 counterexample store: one field with two versions. -/
def twoVersionStore : Store :=
  [("h", [("p", [("s", ⟨"l", 2, [⟨1, "a"⟩, ⟨2, "b"⟩]⟩)])])]

section Lemmas

variable {α : Type}

theorem alGet_alSet_self (k : String) (v : α) (l : List (String × α)) :
    alGet k (alSet k v l) = some v := by
  induction l with
  | nil => simp [alGet, alSet]
  | cons kv t ih =>
    by_cases h : kv.1 = k
    · simp [alSet, alGet, h]
    · simp [alSet, alGet, h, ih]

theorem mem_alSet {x : String × α} {k : String} {v : α} {l : List (String × α)}
    (hx : x ∈ alSet k v l) : x = (k, v) ∨ x ∈ l := by
  induction l with
  | nil => simpa [alSet] using hx
  | cons kv t ih =>
    by_cases h : kv.1 = k
    · simp [alSet, h] at hx
      rcases hx with hx | hx
      · exact Or.inl hx
      · exact Or.inr (List.mem_cons_of_mem _ hx)
    · simp [alSet, h] at hx
      rcases hx with hx | hx
      · exact Or.inr (by simp [hx])
      · rcases ih hx with h1 | h1
        · exact Or.inl h1
        · exact Or.inr (List.mem_cons_of_mem _ h1)

theorem alSet_ne_nil (k : String) (v : α) (l : List (String × α)) :
    alSet k v l ≠ [] := by
  cases l with
  | nil => simp [alSet]
  | cons kv t =>
    by_cases h : kv.1 = k <;> simp [alSet, h]

theorem alErase_sublist (k : String) (l : List (String × α)) :
    (alErase k l).Sublist l := by
  induction l with
  | nil => simp [alErase]
  | cons kv t ih =>
    by_cases h : kv.1 = k
    · simp [alErase, h]
    · simpa [alErase, h] using ih.cons₂ kv

theorem mem_alErase {x : String × α} {k : String} {l : List (String × α)}
    (hx : x ∈ alErase k l) : x ∈ l :=
  (alErase_sublist k l).mem hx

theorem alGet_mem {k : String} {v : α} {l : List (String × α)}
    (h : alGet k l = some v) : (k, v) ∈ l := by
  induction l with
  | nil => simp [alGet] at h
  | cons kv t ih =>
    by_cases hk : kv.1 = k
    · simp [alGet, hk] at h
      subst hk; subst h
      exact List.mem_cons_self _ _
    · simp [alGet, hk] at h
      exact List.mem_cons_of_mem _ (ih h)

theorem alGet_eq_none_of_not_mem (k : String) (l : List (String × α))
    (h : k ∉ l.map Prod.fst) : alGet k l = none := by
  induction l with
  | nil => rfl
  | cons kv t ih =>
    have h1 : kv.1 ≠ k := fun hh => h (by simp [List.mem_cons, hh.symm])
    have h2 : k ∉ t.map Prod.fst := fun hh => h (by simp [List.mem_cons, hh])
    simp [alGet, h1, ih h2]

theorem alGet_alErase_self (k : String) (l : List (String × α))
    (h : (l.map Prod.fst).Nodup) : alGet k (alErase k l) = none := by
  induction l with
  | nil => rfl
  | cons kv t ih =>
    simp at h
    by_cases hk : kv.1 = k
    · subst hk
      simpa [alErase] using alGet_eq_none_of_not_mem _ _ (by simpa using h.1)
    · simp [alErase, alGet, hk]
      exact ih h.2

theorem alGet_alErase_ne (k k' : String) (l : List (String × α)) (h : k ≠ k') :
    alGet k (alErase k' l) = alGet k l := by
  induction l with
  | nil => rfl
  | cons kv t ih =>
    have hne : ¬ (k' = k) := fun hh => h hh.symm
    by_cases hk : kv.1 = k'
    · simp [alErase, alGet, hk, hne]
    · by_cases hk2 : kv.1 = k
      · simp [alErase, alGet, hk, hk2, fun hh : k = k' => h hh]
      · simp [alErase, alGet, hk, hk2, fun hh : k = k' => h hh, ih]

theorem getLast?_eq_some_getLastD {l : List α} (h : l ≠ []) (d : α) :
    l.getLast? = some (l.getLastD d) := by
  cases hg : l.getLast? with
  | none => exact absurd (List.getLast?_eq_none_iff.mp hg) h
  | some x => rw [List.getLastD_eq_getLast?, hg]; rfl

theorem set_last_eq_dropLast_concat {l : List α} (h : l ≠ []) (a : α) :
    l.set (l.length - 1) a = l.dropLast ++ [a] := by
  induction l with
  | nil => exact absurd rfl h
  | cons x t ih =>
    cases t with
    | nil => rfl
    | cons y u =>
      have ht : (y :: u) ≠ [] := by simp
      have hl : (x :: y :: u).length - 1 = ((y :: u).length - 1) + 1 := by
        simp
      rw [hl]
      simpa using ih ht

theorem getFieldData_setField_self (data : Store) (host path selector : String)
    (fd : FieldData) :
    getFieldData (setField data host path selector fd) host path selector = some fd := by
  simp [setField, getFieldData, alGet_alSet_self]

theorem getFieldData_mem {data : Store} {host path selector : String} {fd : FieldData}
    (h : getFieldData data host path selector = some fd) :
    ∃ pm fm, (host, pm) ∈ data ∧ (path, fm) ∈ pm ∧ (selector, fd) ∈ fm := by
  unfold getFieldData at h
  cases hh : alGet host data with
  | none => rw [hh] at h; exact absurd h (by simp)
  | some pm =>
    rw [hh] at h
    simp only [Option.some_bind] at h
    cases hp : alGet path pm with
    | none => rw [hp] at h; exact absurd h (by simp)
    | some fm =>
      rw [hp] at h
      simp only [Option.some_bind] at h
      exact ⟨pm, fm, alGet_mem hh, alGet_mem hp, alGet_mem h⟩

theorem allFields_iff (P : FieldData → Bool) (s : Store) :
    allFields P s = true ↔
      ∀ hp ∈ s, ∀ pf ∈ hp.2, ∀ sf ∈ pf.2, P sf.2 = true := by
  simp [allFields, List.all_eq_true]

theorem allFields_lookup {P : FieldData → Bool} {s : Store}
    {host path selector : String} {fd : FieldData}
    (hall : allFields P s = true)
    (h : getFieldData s host path selector = some fd) : P fd = true := by
  obtain ⟨pm, fm, h1, h2, h3⟩ := getFieldData_mem h
  exact (allFields_iff P s).mp hall _ h1 _ h2 _ h3

theorem allFields_setField {P : FieldData → Bool} {s : Store}
    (host path selector : String) {fd : FieldData}
    (hall : allFields P s = true) (hfd : P fd = true) :
    allFields P (setField s host path selector fd) = true := by
  rw [allFields_iff] at hall ⊢
  unfold setField
  intro hp hhp pf hpf sf hsf
  rcases mem_alSet hhp with h1 | h1
  · subst h1
    rcases mem_alSet hpf with h2 | h2
    · subst h2
      rcases mem_alSet hsf with h3 | h3
      · subst h3; exact hfd
      · cases hg : alGet host s with
        | none => rw [hg] at h3; simp [alGet] at h3
        | some pm =>
          rw [hg] at h3
          simp only [Option.getD_some] at h3
          cases hg2 : alGet path pm with
          | none => rw [hg2] at h3; simp [alGet] at h3
          | some fm =>
            rw [hg2] at h3
            simp only [Option.getD_some] at h3
            exact hall _ (alGet_mem hg) _ (alGet_mem hg2) _ h3
    · cases hg : alGet host s with
      | none => rw [hg] at h2; simp [alGet] at h2
      | some pm =>
        rw [hg] at h2
        simp only [Option.getD_some] at h2
        exact hall _ (alGet_mem hg) _ h2 _ hsf
  · exact hall _ h1 _ hpf _ hsf

theorem allFields_alErase {P : FieldData → Bool} {s : Store} (k : String)
    (hall : allFields P s = true) : allFields P (alErase k s) = true := by
  rw [allFields_iff] at hall ⊢
  intro hp hhp
  exact hall _ (mem_alErase hhp)

theorem allFields_evictLoop {P : FieldData → Bool} (ms : Nat) :
    ∀ (fuel : Nat) (data : Store) (evicted : Nat),
      allFields P data = true → allFields P (evictLoop ms fuel data evicted).1 = true := by
  intro fuel
  induction fuel with
  | zero => intro data evicted h; simpa [evictLoop] using h
  | succ n ih =>
    intro data evicted h
    unfold evictLoop
    split
    · cases hfind : findOldestDomain data with
      | none => simpa using h
      | some host =>
        simp only
        split
        · simpa using h
        · split
          · exact ih _ _ (allFields_alErase host h)
          · simpa using allFields_alErase host h
    · simpa using h

theorem allFields_ensure {P : FieldData → Bool} (measure : Store → Nat) (s : Store)
    (hall : allFields P s = true) :
    allFields P (ensureStorageSpace measure s).store = true := by
  unfold ensureStorageSpace
  by_cases hge : pctGE90 (measure s) = true
  · by_cases hpos : 0 < (evictLoop (measure s) 10 s 0).2
    · simpa [hge, hpos] using allFields_evictLoop (measure s) 10 s 0 hall
    · simpa [hge, hpos] using hall
  · simp only [Bool.not_eq_true] at hge
    simpa [hge] using hall

theorem ite_trim_eq_drop (vs : List Version) :
    (if MAX_VERSIONS_PER_FIELD < vs.length then
        vs.drop (vs.length - MAX_VERSIONS_PER_FIELD)
      else vs) = vs.drop (vs.length - MAX_VERSIONS_PER_FIELD) := by
  split
  · rfl
  · have h0 : vs.length - MAX_VERSIONS_PER_FIELD = 0 := by omega
    simp [h0]

theorem coreField_versions (p : SaveParams) (old : Option FieldData) :
    (coreField p old).versions = applyVersions p (oldVersions old) := by
  cases old <;> rfl

theorem coreField_lastUpdated (p : SaveParams) (old : Option FieldData) :
    (coreField p old).lastUpdated = p.timestamp := by
  cases old <;> rfl

theorem applyVersions_append (p : SaveParams) (vs : List Version)
    (h : p.isSignificantChange = true ∨ vs = []) :
    applyVersions p vs =
      (vs ++ [({ ts := p.timestamp, text := p.text } : Version)]).drop
        (vs.length + 1 - MAX_VERSIONS_PER_FIELD) := by
  have hcond : (p.isSignificantChange || vs.isEmpty) = true := by
    rcases h with h | h <;> simp [h]
  unfold applyVersions
  rw [hcond]
  simp only [if_true]
  have := ite_trim_eq_drop (vs ++ [({ ts := p.timestamp, text := p.text } : Version)])
  simpa [List.length_append] using this

theorem applyVersions_amend (p : SaveParams) (vs : List Version)
    (hsig : p.isSignificantChange = false) (hne : vs ≠ []) :
    applyVersions p vs =
      vs.dropLast ++ [({ ts := p.timestamp, text := p.text } : Version)] := by
  have hemp : vs.isEmpty = false := by
    cases hv : vs with
    | nil => exact absurd hv hne
    | cons a t => rfl
  have hpos : 0 < vs.length := by
    cases hv : vs with
    | nil => exact absurd hv hne
    | cons a t => simp [hv]
  unfold applyVersions
  rw [hsig, hemp]
  simp only [Bool.or_self, Bool.false_eq_true, if_false, hpos, if_true, if_pos]
  exact set_last_eq_dropLast_concat hne _

theorem ensure_below (measure : Store → Nat) (s : Store)
    (h : pctGE90 (measure s) = false) :
    ensureStorageSpace measure s = { store := s, evicted := 0, wrote := false } := by
  unfold ensureStorageSpace
  simp [h]

theorem ensure_above (measure : Store → Nat) (s : Store)
    (h : pctGE90 (measure s) = true) :
    ensureStorageSpace measure s =
      (if 0 < (evictLoop (measure s) 10 s 0).2 then
        { store := (evictLoop (measure s) 10 s 0).1,
          evicted := (evictLoop (measure s) 10 s 0).2, wrote := true }
      else
        { store := s, evicted := (evictLoop (measure s) 10 s 0).2,
          wrote := false }) := by
  unfold ensureStorageSpace
  simp [h]

theorem getFieldData_host_congr {d1 d2 : Store} (h p sel : String)
    (hh : alGet h d1 = alGet h d2) :
    getFieldData d1 h p sel = getFieldData d2 h p sel := by
  unfold getFieldData
  rw [hh]

theorem hostsNodup_alErase {l : Store} (k : String) (h : hostsNodup l) :
    hostsNodup (alErase k l) :=
  h.sublist (List.Sublist.map Prod.fst (alErase_sublist k l))

theorem getFieldData_evictLoop (ms : Nat) (h p sel : String) :
    ∀ (fuel : Nat) (data : Store), hostsNodup data → ∀ evicted : Nat,
      getFieldData (evictLoop ms fuel data evicted).1 h p sel = none ∨
      getFieldData (evictLoop ms fuel data evicted).1 h p sel =
        getFieldData data h p sel := by
  intro fuel
  induction fuel with
  | zero => intro data _ evicted; right; rfl
  | succ n ih =>
    intro data hnd evicted
    unfold evictLoop
    split
    · cases hfind : findOldestDomain data with
      | none => right; rfl
      | some host =>
        simp only
        split
        · right; rfl
        · have hcase : getFieldData (alErase host data) h p sel = none ∨
              getFieldData (alErase host data) h p sel = getFieldData data h p sel := by
            by_cases hhh : h = host
            · left
              subst hhh
              unfold getFieldData
              rw [alGet_alErase_self h data hnd]
              rfl
            · right
              exact getFieldData_host_congr h p sel (alGet_alErase_ne h host data hhh)
          split
          · rcases ih (alErase host data) (hostsNodup_alErase host hnd) (evicted + 1)
              with h1 | h1
            · left; exact h1
            · rcases hcase with h2 | h2
              · left; rw [h1, h2]
              · right; rw [h1, h2]
          · exact hcase
    · right; rfl

theorem getFieldData_ensure (measure : Store → Nat) (s : Store) (h p sel : String)
    (hnd : hostsNodup s) :
    getFieldData (ensureStorageSpace measure s).store h p sel = none ∨
    getFieldData (ensureStorageSpace measure s).store h p sel =
      getFieldData s h p sel := by
  unfold ensureStorageSpace
  by_cases hge : pctGE90 (measure s) = true
  · by_cases hpos : 0 < (evictLoop (measure s) 10 s 0).2
    · have := getFieldData_evictLoop (measure s) h p sel 10 s hnd 0
      simpa [hge, hpos] using this
    · right; simp [hge, hpos]
  · simp only [Bool.not_eq_true] at hge
    right; simp [hge]

theorem isEmpty_eq_false_of_ne_nil {l : List α} (h : l ≠ []) : l.isEmpty = false := by
  cases hv : l with
  | nil => exact absurd hv h
  | cons a t => rfl

theorem ne_nil_of_isEmpty_eq_false {l : List α} (h : l.isEmpty = false) : l ≠ [] := by
  intro hv
  rw [hv] at h
  simp at h

theorem applyVersions_getLast (p : SaveParams) (vs : List Version) :
    (applyVersions p vs).getLast? =
      some ({ ts := p.timestamp, text := p.text } : Version) := by
  by_cases hc : (p.isSignificantChange || vs.isEmpty) = true
  · have h : p.isSignificantChange = true ∨ vs = [] := by
      rcases Bool.or_eq_true_iff.mp hc with h | h
      · exact Or.inl h
      · exact Or.inr (List.isEmpty_iff.mp h)
    rw [applyVersions_append p vs h]
    by_cases hlen : vs.length + 1 ≤ MAX_VERSIONS_PER_FIELD
    · have h0 : vs.length + 1 - MAX_VERSIONS_PER_FIELD = 0 := by omega
      rw [h0, List.drop_zero, List.getLast?_concat]
    · have hk : vs.length + 1 - MAX_VERSIONS_PER_FIELD ≤ vs.length := by
        have : 0 < MAX_VERSIONS_PER_FIELD := by decide
        omega
      rw [List.drop_append_of_le_length hk, List.getLast?_concat]
  · simp only [Bool.or_eq_true, not_or, Bool.not_eq_true] at hc
    have hne : vs ≠ [] := ne_nil_of_isEmpty_eq_false hc.2
    rw [applyVersions_amend p vs hc.1 hne, List.getLast?_concat]

theorem applyVersions_length (p : SaveParams) (vs : List Version)
    (h : vs.length ≤ MAX_VERSIONS_PER_FIELD) :
    (applyVersions p vs).length ≤ MAX_VERSIONS_PER_FIELD := by
  by_cases hc : (p.isSignificantChange || vs.isEmpty) = true
  · have hor : p.isSignificantChange = true ∨ vs = [] := by
      rcases Bool.or_eq_true_iff.mp hc with h1 | h1
      · exact Or.inl h1
      · exact Or.inr (List.isEmpty_iff.mp h1)
    rw [applyVersions_append p vs hor]
    simp only [List.length_drop, List.length_append, List.length_cons, List.length_nil]
    simp only [MAX_VERSIONS_PER_FIELD]
    omega
  · simp only [Bool.or_eq_true, not_or, Bool.not_eq_true] at hc
    have hne : vs ≠ [] := ne_nil_of_isEmpty_eq_false hc.2
    rw [applyVersions_amend p vs hc.1 hne]
    simp only [List.length_append, List.length_dropLast, List.length_cons, List.length_nil]
    simp only [MAX_VERSIONS_PER_FIELD] at h ⊢
    omega

theorem luField_coreField (p : SaveParams) (old : Option FieldData) :
    luField (coreField p old) = true := by
  simp [luField, coreField_versions, coreField_lastUpdated, applyVersions_getLast]

theorem luInv_saveFieldData (measure : Store → Nat) (p : SaveParams) (s : Store)
    (h : luInv s = true) : luInv (saveFieldData measure p s) = true := by
  unfold saveFieldData saveFieldCore
  exact allFields_setField _ _ _ (allFields_ensure measure s h) (luField_coreField _ _)

theorem allFields_pruneDelete {P : FieldData → Bool} {s : Store}
    (host path sel : String) (hall : allFields P s = true) :
    allFields P (pruneDelete s host path sel) = true := by
  cases hg : alGet host s with
  | none => simpa [pruneDelete, hg] using hall
  | some paths =>
    cases hg2 : alGet path paths with
    | none => simpa [pruneDelete, hg, hg2] using hall
    | some fields =>
      unfold pruneDelete
      rw [hg]
      dsimp only
      rw [hg2]
      dsimp only
      rw [allFields_iff] at hall
      have hpaths : ∀ pf ∈ paths, ∀ sf ∈ pf.2, P sf.2 = true :=
        fun pf hpf sf hsf => hall _ (alGet_mem hg) _ hpf _ hsf
      have hfields2 : ∀ sf ∈ alErase sel fields, P sf.2 = true :=
        fun sf hsf => hpaths _ (alGet_mem hg2) _ (mem_alErase hsf)
      rw [allFields_iff]
      intro hp hhp pf hpf sf hsf
      split at hhp <;> split at hhp
      · exact hall _ (mem_alErase hhp) _ hpf _ hsf
      · rcases mem_alSet hhp with h1 | h1
        · subst h1
          exact hpaths _ (mem_alErase hpf) _ hsf
        · exact hall _ h1 _ hpf _ hsf
      · exact hall _ (mem_alErase hhp) _ hpf _ hsf
      · rcases mem_alSet hhp with h1 | h1
        · subst h1
          rcases mem_alSet hpf with h2 | h2
          · subst h2
            exact hfields2 _ hsf
          · exact hpaths _ h2 _ hsf
        · exact hall _ h1 _ hpf _ hsf

theorem luInv_deleteEntryById (id : String) (s : Store) (h : luInv s = true) :
    luInv (deleteEntryById id s) = true := by
  cases hg : getFieldData s (parseEntryId id).host (parseEntryId id).path
      (parseEntryId id).selector with
  | none =>
    unfold deleteEntryById
    dsimp only
    rw [hg]
    exact h
  | some fd =>
    unfold deleteEntryById
    dsimp only
    rw [hg]
    dsimp only
    split
    · exact allFields_pruneDelete _ _ _ h
    · rename_i hne
      apply allFields_setField _ _ _ h
      have hvne : fd.versions.eraseIdx
          (jsSpliceStart (parseEntryId id).versionIndex fd.versions.length) ≠ [] := by
        intro hv
        rw [hv] at hne
        exact hne rfl
      have hl := getLast?_eq_some_getLastD hvne default
      unfold luField
      dsimp only
      rw [hl]
      simp only [decide_eq_true_iff]

theorem noEmpty_iff (s : Store) :
    noEmpty s = true ↔ ∀ hp ∈ s, hp.2 ≠ [] ∧ ∀ pf ∈ hp.2, pf.2 ≠ [] := by
  simp [noEmpty, List.all_eq_true]

theorem noEmpty_alErase {s : Store} (k : String) (h : noEmpty s = true) :
    noEmpty (alErase k s) = true := by
  rw [noEmpty_iff] at h ⊢
  exact fun hp hhp => h _ (mem_alErase hhp)

theorem noEmpty_setField {s : Store} (host path sel : String) (fd : FieldData)
    (h : noEmpty s = true) : noEmpty (setField s host path sel fd) = true := by
  rw [noEmpty_iff] at h ⊢
  unfold setField
  intro hp hhp
  rcases mem_alSet hhp with h1 | h1
  · subst h1
    refine ⟨alSet_ne_nil _ _ _, ?_⟩
    intro pf hpf
    rcases mem_alSet hpf with h2 | h2
    · subst h2
      exact alSet_ne_nil _ _ _
    · cases hg : alGet host s with
      | none => rw [hg] at h2; simp [alGet] at h2
      | some pm =>
        rw [hg] at h2
        simp only [Option.getD_some] at h2
        exact (h _ (alGet_mem hg)).2 _ h2
  · exact h _ h1

theorem noEmpty_pruneDelete {s : Store} (host path sel : String)
    (h : noEmpty s = true) : noEmpty (pruneDelete s host path sel) = true := by
  cases hg : alGet host s with
  | none => simpa [pruneDelete, hg] using h
  | some paths =>
    cases hg2 : alGet path paths with
    | none => simpa [pruneDelete, hg, hg2] using h
    | some fields =>
      unfold pruneDelete
      rw [hg]
      dsimp only
      rw [hg2]
      dsimp only
      rw [noEmpty_iff] at h
      have hpaths : ∀ pf ∈ paths, pf.2 ≠ [] := (h _ (alGet_mem hg)).2
      split <;> rename_i hemp1 <;> split <;> rename_i hemp2
      · rw [noEmpty_iff]
        exact fun hp hhp => h _ (mem_alErase hhp)
      · rw [noEmpty_iff]
        intro hp hhp
        rcases mem_alSet hhp with h1 | h1
        · subst h1
          refine ⟨ne_nil_of_isEmpty_eq_false (by simpa using hemp2), ?_⟩
          exact fun pf hpf => hpaths _ (mem_alErase hpf)
        · exact h _ h1
      · rw [noEmpty_iff]
        exact fun hp hhp => h _ (mem_alErase hhp)
      · rw [noEmpty_iff]
        intro hp hhp
        rcases mem_alSet hhp with h1 | h1
        · subst h1
          refine ⟨alSet_ne_nil _ _ _, ?_⟩
          intro pf hpf
          rcases mem_alSet hpf with h2 | h2
          · subst h2
            exact ne_nil_of_isEmpty_eq_false (by simpa using hemp1)
          · exact hpaths _ h2
        · exact h _ h1

theorem capOK_saveFieldData (measure : Store → Nat) (p : SaveParams) (s : Store)
    (h : capOK s = true) : capOK (saveFieldData measure p s) = true := by
  unfold saveFieldData saveFieldCore
  have h1 : capOK (ensureStorageSpace measure s).store = true :=
    allFields_ensure measure s h
  apply allFields_setField _ _ _ h1
  have hold : (oldVersions (getFieldData (ensureStorageSpace measure s).store
      p.host p.path p.selector)).length ≤ MAX_VERSIONS_PER_FIELD := by
    cases hg : getFieldData (ensureStorageSpace measure s).store p.host p.path p.selector with
    | none => simp [oldVersions]
    | some fd =>
      have := allFields_lookup h1 hg
      simpa [oldVersions] using this
  rw [decide_eq_true_iff, coreField_versions]
  exact applyVersions_length _ _ hold

theorem capOK_applySaves (measure : Store → Nat) :
    ∀ (ops : List SaveParams) (s : Store), capOK s = true →
      capOK (applySaves measure ops s) = true := by
  intro ops
  induction ops with
  | nil =>
    intro s h
    simp only [applySaves, List.foldl_nil]
    exact h
  | cons op t ih =>
    intro s h
    have hstep : capOK (saveFieldData measure op s) = true :=
      capOK_saveFieldData measure op s h
    simpa [applySaves] using ih (saveFieldData measure op s) hstep

theorem luInv_lookup {st : Store} (hst : luInv st = true)
    {host path sel : String} {fd : FieldData}
    (hg : getFieldData st host path sel = some fd) (hne : fd.versions ≠ []) :
    fd.lastUpdated = (fd.versions.getLastD default).ts := by
  have hfd := allFields_lookup hst hg
  unfold luField at hfd
  rw [getLast?_eq_some_getLastD hne default] at hfd
  simpa using hfd

theorem noEmpty_deleteField (host path sel : String) (s : Store)
    (h : noEmpty s = true) : noEmpty (deleteField host path sel s) = true := by
  cases hg : getFieldData s host path sel with
  | none =>
    unfold deleteField
    rw [hg]
    exact h
  | some fd =>
    unfold deleteField
    rw [hg]
    exact noEmpty_pruneDelete host path sel h

theorem noEmpty_deleteEntryById (id : String) (s : Store)
    (h : noEmpty s = true) : noEmpty (deleteEntryById id s) = true := by
  cases hg : getFieldData s (parseEntryId id).host (parseEntryId id).path
      (parseEntryId id).selector with
  | none =>
    unfold deleteEntryById
    dsimp only
    rw [hg]
    exact h
  | some fd =>
    unfold deleteEntryById
    dsimp only
    rw [hg]
    dsimp only
    split
    · exact noEmpty_pruneDelete _ _ _ h
    · exact noEmpty_setField _ _ _ _ h

end Lemmas

section Claims

/-- C10: the quota-guard pass writes the durable blob only when it evicted at
least one group; whenever measured usage is below the 90% threshold it performs
no write and returns the store unchanged. -/
theorem ensureStorageSpace_write_discipline (measure : Store → Nat) (s : Store) :
    ((ensureStorageSpace measure s).wrote = true →
      0 < (ensureStorageSpace measure s).evicted) ∧
    (pctGE90 (measure s) = false →
      (ensureStorageSpace measure s).wrote = false ∧
      (ensureStorageSpace measure s).store = s) := by
  constructor
  · intro hw
    unfold ensureStorageSpace at hw ⊢
    by_cases hge : pctGE90 (measure s) = true
    · by_cases hpos : 0 < (evictLoop (measure s) 10 s 0).2
      · simp [hge, hpos]
      · simp [hge, hpos] at hw
    · simp only [Bool.not_eq_true] at hge
      simp [hge] at hw
  · intro hb
    rw [ensure_below measure s hb]
    exact ⟨rfl, rfl⟩

/-- Witness for C10 at a concrete measurement and store. -/
theorem ensureStorageSpace_write_discipline_witness :
    (ensureStorageSpace (fun _ => 0) []).wrote = false ∧
    (ensureStorageSpace (fun _ => 0) []).store = [] :=
  (ensureStorageSpace_write_discipline (fun _ => 0) []).2 (by decide)

/-- C9: the flat projection is sorted by timestamp descending: every entry's
timestamp is at least the next one's. -/
theorem getAllEntriesFlat_sorted_descending (s : Store) :
    List.Pairwise (fun a b : Entry => b.timestamp ≤ a.timestamp)
      (getAllEntriesFlat s) := by
  have htrans : ∀ a b c : Entry, entryLE a b = true → entryLE b c = true →
      entryLE a c = true := by
    intro a b c hab hbc
    simp only [entryLE, decide_eq_true_iff] at *
    omega
  have htotal : ∀ a b : Entry, (entryLE a b || entryLE b a) = true := by
    intro a b
    simp only [entryLE, Bool.or_eq_true, decide_eq_true_iff]
    omega
  have h := List.sorted_mergeSort htrans htotal (allEntries s)
  exact h.imp fun hab => by simpa [entryLE, decide_eq_true_iff] using hab

/-- C6: a save to a key whose record is absent or has no versions always
appends a version with the supplied text and timestamp, whatever the
classification flag says. -/
theorem first_save_always_appends (measure : Store → Nat) (p : SaveParams) (s : Store)
    (hnd : hostsNodup s)
    (hempty : getFieldData s p.host p.path p.selector = none ∨
      ∃ fd, getFieldData s p.host p.path p.selector = some fd ∧ fd.versions = []) :
    ∃ fd2, getFieldData (saveFieldData measure p s) p.host p.path p.selector = some fd2 ∧
      fd2.versions = [({ ts := p.timestamp, text := p.text } : Version)] := by
  unfold saveFieldData saveFieldCore
  refine ⟨coreField p
      (getFieldData (ensureStorageSpace measure s).store p.host p.path p.selector),
    getFieldData_setField_self _ _ _ _ _, ?_⟩
  have hv : oldVersions
      (getFieldData (ensureStorageSpace measure s).store p.host p.path p.selector) = [] := by
    rcases getFieldData_ensure measure s p.host p.path p.selector hnd with h1 | h1
    · rw [h1]; rfl
    · rw [h1]
      rcases hempty with h2 | ⟨fd, h2, h3⟩
      · rw [h2]; rfl
      · rw [h2]; simp [oldVersions, h3]
  rw [coreField_versions, hv, applyVersions_append p [] (Or.inr rfl)]
  rfl

/-- Witness for C6: the very first save, with the classification flag false. -/
theorem first_save_always_appends_witness :
    ∃ fd2, getFieldData
        (saveFieldData (fun _ => 0) ⟨"h", "p", "s", "l", "t", 5, false⟩ [])
        "h" "p" "s" = some fd2 ∧
      fd2.versions = [({ ts := 5, text := "t" } : Version)] :=
  first_save_always_appends (fun _ => 0) ⟨"h", "p", "s", "l", "t", 5, false⟩ []
    (by simp [hostsNodup]) (Or.inl rfl)

/-- C7: starting from a store satisfying the `lastUpdated` invariant, after a
`saveFieldData` or a `deleteEntryById` every record with versions has
`lastUpdated` equal to the timestamp of its last version. -/
theorem lastUpdated_tracks_last_version (s : Store) (hinv : luInv s = true) :
    (∀ (measure : Store → Nat) (p : SaveParams) (host path sel : String)
        (fd : FieldData),
        getFieldData (saveFieldData measure p s) host path sel = some fd →
        fd.versions ≠ [] →
        fd.lastUpdated = (fd.versions.getLastD default).ts) ∧
    (∀ (id : String) (host path sel : String) (fd : FieldData),
        getFieldData (deleteEntryById id s) host path sel = some fd →
        fd.versions ≠ [] →
        fd.lastUpdated = (fd.versions.getLastD default).ts) := by
  constructor
  · intro measure p host path sel fd hg hne
    exact luInv_lookup (luInv_saveFieldData measure p s hinv) hg hne
  · intro id host path sel fd hg hne
    exact luInv_lookup (luInv_deleteEntryById id s hinv) hg hne

/-- Witness for C7: a significant save on a one-version store. -/
theorem lastUpdated_tracks_last_version_witness :
    (⟨"l", 9, [⟨2, "x"⟩, ⟨9, "y"⟩]⟩ : FieldData).lastUpdated =
      ((⟨"l", 9, [⟨2, "x"⟩, ⟨9, "y"⟩]⟩ : FieldData).versions.getLastD default).ts :=
  (lastUpdated_tracks_last_version
      [("h", [("p", [("s", ⟨"l", 2, [⟨2, "x"⟩]⟩)])])] (by decide)).1
    (fun _ => 0) ⟨"h", "p", "s", "l", "y", 9, true⟩ "h" "p" "s"
    ⟨"l", 9, [⟨2, "x"⟩, ⟨9, "y"⟩]⟩ (by decide) (by decide)

/-- C8: starting from a store with no empty subgroup or group containers,
neither `deleteField` nor `deleteEntryById` leaves an empty subgroup map or an
empty group map behind. -/
theorem no_empty_containers_after_delete (s : Store) (h : noEmpty s = true) :
    (∀ host path sel : String, noEmpty (deleteField host path sel s) = true) ∧
    (∀ id : String, noEmpty (deleteEntryById id s) = true) :=
  ⟨fun host path sel => noEmpty_deleteField host path sel s h,
   fun id => noEmpty_deleteEntryById id s h⟩

/-- Witness for C8: deleting the sole remaining version of the only field
removes field, subgroup and group containers. -/
theorem no_empty_containers_after_delete_witness :
    noEmpty (deleteEntryById "h|p|s|0" [("h", [("p", [("s", ⟨"l", 2, [⟨2, "x"⟩]⟩)])])])
      = true :=
  (no_empty_containers_after_delete [("h", [("p", [("s", ⟨"l", 2, [⟨2, "x"⟩]⟩)])])]
    (by decide)).2 "h|p|s|0"

/-- C2: after any sequence of `saveFieldData` calls from a store within the
version cap, every field still holds at most 10 versions; and a significant
save appends the new `{ts, text}` and retains exactly the most recent versions
(the suffix of the appended list, oldest dropped first). -/
theorem saveFieldData_version_cap_and_recency :
    (∀ (measure : Store → Nat) (ops : List SaveParams) (s : Store),
      capOK s = true →
      ∀ (host path sel : String) (fd : FieldData),
        getFieldData (applySaves measure ops s) host path sel = some fd →
        fd.versions.length ≤ MAX_VERSIONS_PER_FIELD) ∧
    (∀ (data : Store) (p : SaveParams) (fd : FieldData),
      getFieldData data p.host p.path p.selector = some fd →
      p.isSignificantChange = true →
      ∃ fd2, getFieldData (saveFieldCore p data) p.host p.path p.selector = some fd2 ∧
        fd2.versions =
          (fd.versions ++ [({ ts := p.timestamp, text := p.text } : Version)]).drop
            (fd.versions.length + 1 - MAX_VERSIONS_PER_FIELD)) := by
  constructor
  · intro measure ops s hcap host path sel fd hg
    have h1 := capOK_applySaves measure ops s hcap
    have h2 := allFields_lookup h1 hg
    simpa using h2
  · intro data p fd hg hsig
    unfold saveFieldCore
    refine ⟨coreField p (getFieldData data p.host p.path p.selector),
      getFieldData_setField_self _ _ _ _ _, ?_⟩
    rw [coreField_versions, hg]
    have : oldVersions (some fd) = fd.versions := rfl
    rw [this, applyVersions_append p fd.versions (Or.inl hsig)]

/-- Witness for C2: an eleventh significant save drops the oldest version. -/
theorem saveFieldData_version_cap_and_recency_witness :
    (∀ (host path sel : String) (fd : FieldData),
      getFieldData (applySaves (fun _ => 0)
          [⟨"h", "p", "s", "l", "t", 1, true⟩] []) host path sel = some fd →
      fd.versions.length ≤ MAX_VERSIONS_PER_FIELD) ∧
    (∃ fd2, getFieldData
        (saveFieldCore ⟨"h", "p", "s", "l", "new", 99, true⟩
          [("h", [("p", [("s", ⟨"l", 10,
            [⟨1, "a"⟩, ⟨2, "b"⟩, ⟨3, "c"⟩, ⟨4, "d"⟩, ⟨5, "e"⟩,
             ⟨6, "f"⟩, ⟨7, "g"⟩, ⟨8, "h"⟩, ⟨9, "i"⟩, ⟨10, "j"⟩]⟩)])])])
        "h" "p" "s" = some fd2 ∧
      fd2.versions =
        (([⟨1, "a"⟩, ⟨2, "b"⟩, ⟨3, "c"⟩, ⟨4, "d"⟩, ⟨5, "e"⟩,
           ⟨6, "f"⟩, ⟨7, "g"⟩, ⟨8, "h"⟩, ⟨9, "i"⟩, ⟨10, "j"⟩] :
            List Version) ++ [({ ts := 99, text := "new" } : Version)]).drop
          (([⟨1, "a"⟩, ⟨2, "b"⟩, ⟨3, "c"⟩, ⟨4, "d"⟩, ⟨5, "e"⟩,
             ⟨6, "f"⟩, ⟨7, "g"⟩, ⟨8, "h"⟩, ⟨9, "i"⟩, ⟨10, "j"⟩] :
              List Version).length + 1 - MAX_VERSIONS_PER_FIELD)) :=
  ⟨fun host path sel fd hg =>
    saveFieldData_version_cap_and_recency.1 (fun _ => 0)
      [⟨"h", "p", "s", "l", "t", 1, true⟩] [] (by decide) host path sel fd hg,
   saveFieldData_version_cap_and_recency.2
      [("h", [("p", [("s", ⟨"l", 10,
        [⟨1, "a"⟩, ⟨2, "b"⟩, ⟨3, "c"⟩, ⟨4, "d"⟩, ⟨5, "e"⟩,
         ⟨6, "f"⟩, ⟨7, "g"⟩, ⟨8, "h"⟩, ⟨9, "i"⟩, ⟨10, "j"⟩]⟩)])])]
      ⟨"h", "p", "s", "l", "new", 99, true⟩
      ⟨"l", 10,
        [⟨1, "a"⟩, ⟨2, "b"⟩, ⟨3, "c"⟩, ⟨4, "d"⟩, ⟨5, "e"⟩,
         ⟨6, "f"⟩, ⟨7, "g"⟩, ⟨8, "h"⟩, ⟨9, "i"⟩, ⟨10, "j"⟩]⟩ (by decide) rfl⟩

/-- C1: with the quota guard idle, a save through `processInput` to a field
that already has a version is classified by the Levenshtein distance between
the new text and the last stored version's text: distance at least 10 appends
the new `{timestamp, text}` as the new last version, growing the list by one up
to the cap of 10; distance below 10 rewrites the last version's text and
timestamp in place, leaving the length unchanged. -/
theorem processInput_classifies_by_distance (measure : Store → Nat)
    (host path selector label value : String) (timestamp : Int) (s : Store)
    (fd : FieldData)
    (hq : pctGE90 (measure s) = false)
    (hfd : getFieldData s host path selector = some fd)
    (hne : fd.versions ≠ []) :
    ∃ fd2, getFieldData
        (processInput measure host path selector label value timestamp s)
        host path selector = some fd2 ∧
      ((SIGNIFICANT_CHANGE_THRESHOLD ≤
          lev (fd.versions.getLastD default).text value →
        fd2.versions =
          (fd.versions ++ [({ ts := timestamp, text := value } : Version)]).drop
            (fd.versions.length + 1 - MAX_VERSIONS_PER_FIELD) ∧
        fd2.versions.length = min (fd.versions.length + 1) MAX_VERSIONS_PER_FIELD ∧
        fd2.versions.getLastD default =
          ({ ts := timestamp, text := value } : Version)) ∧
      (lev (fd.versions.getLastD default).text value < SIGNIFICANT_CHANGE_THRESHOLD →
        fd2.versions =
          fd.versions.dropLast ++ [({ ts := timestamp, text := value } : Version)] ∧
        fd2.versions.length = fd.versions.length)) := by
  have hlast := getLast?_eq_some_getLastD hne default
  have hcls : classifyInput s host path selector value =
      decide (SIGNIFICANT_CHANGE_THRESHOLD ≤
        lev (fd.versions.getLastD default).text value) := by
    unfold classifyInput
    rw [hfd]
    dsimp only
    rw [hlast]
  have hrw : processInput measure host path selector label value timestamp s =
      saveFieldCore
        ⟨host, path, selector, label, value, timestamp,
          classifyInput s host path selector value⟩ s := by
    unfold processInput saveFieldData
    rw [ensure_below measure s hq]
  rw [hrw]
  unfold saveFieldCore
  refine ⟨_, getFieldData_setField_self _ _ _ _ _, ?_⟩
  rw [coreField_versions]
  dsimp only
  rw [hfd]
  have hov : oldVersions (some fd) = fd.versions := rfl
  rw [hov]
  have hlp : 0 < fd.versions.length := List.length_pos.mpr hne
  constructor
  · intro hd
    have hsig : (⟨host, path, selector, label, value, timestamp,
        classifyInput s host path selector value⟩ : SaveParams).isSignificantChange
        = true := by
      dsimp only
      rw [hcls]
      exact decide_eq_true hd
    refine ⟨?_, ?_, ?_⟩
    · rw [applyVersions_append _ _ (Or.inl hsig)]
    · rw [applyVersions_append _ _ (Or.inl hsig)]
      simp only [List.length_drop, List.length_append, List.length_cons,
        List.length_nil, MAX_VERSIONS_PER_FIELD]
      omega
    · rw [List.getLastD_eq_getLast?, applyVersions_getLast]
      rfl
  · intro hd
    have hsig : (⟨host, path, selector, label, value, timestamp,
        classifyInput s host path selector value⟩ : SaveParams).isSignificantChange
        = false := by
      dsimp only
      rw [hcls]
      exact decide_eq_false (by omega)
    constructor
    · rw [applyVersions_amend _ _ hsig hne]
    · rw [applyVersions_amend _ _ hsig hne]
      simp only [List.length_append, List.length_dropLast, List.length_cons,
        List.length_nil]
      omega

/-- Witness for C1: a minor edit (distance 0) on a one-version record, through
the theorem's minor branch. -/
theorem processInput_classifies_by_distance_witness :
    ∃ fd2, getFieldData
        (processInput (fun _ => 0) "h" "p" "s" "l" "x" 9
          [("h", [("p", [("s", ⟨"l", 2, [⟨2, "x"⟩]⟩)])])])
        "h" "p" "s" = some fd2 ∧
      fd2.versions =
        (([⟨2, "x"⟩] : List Version).dropLast ++
          [({ ts := 9, text := "x" } : Version)]) ∧
      fd2.versions.length = ([⟨2, "x"⟩] : List Version).length := by
  obtain ⟨fd2, hget, hcases⟩ :=
    processInput_classifies_by_distance (fun _ => 0) "h" "p" "s" "l" "x" 9
      [("h", [("p", [("s", ⟨"l", 2, [⟨2, "x"⟩]⟩)])])] ⟨"l", 2, [⟨2, "x"⟩]⟩
      (by decide) (by decide) (by decide)
  obtain ⟨hv, hl⟩ := hcases.2 (by decide)
  exact ⟨fd2, hget, hv, hl⟩

end Claims

section EvictionLemmas

theorem oldStep_some (b : String × Int) (c : String × Int) :
    oldStep (some b) c = some (if c.2 < b.2 then c else b) := by
  have h : oldStep (some b) c = if c.2 < b.2 then some c else some b := rfl
  rw [h]
  split <;> rfl

theorem foldl_oldStep_some :
    ∀ (l : List (String × Int)) (b : String × Int),
      ∃ r, l.foldl oldStep (some b) = some r ∧ (r = b ∨ r ∈ l) := by
  intro l
  induction l with
  | nil => intro b; exact ⟨b, rfl, Or.inl rfl⟩
  | cons c t ih =>
    intro b
    rw [List.foldl_cons, oldStep_some]
    obtain ⟨r, hr, hcase⟩ := ih (if c.2 < b.2 then c else b)
    refine ⟨r, hr, ?_⟩
    rcases hcase with h1 | h1
    · by_cases hc : c.2 < b.2
      · rw [if_pos hc] at h1
        exact Or.inr (by simp [h1])
      · rw [if_neg hc] at h1
        exact Or.inl h1
    · exact Or.inr (List.mem_cons_of_mem _ h1)

theorem hostFieldTimes_host {data : Store} {ht : String × Int}
    (hm : ht ∈ hostFieldTimes data) : ∃ pm, (ht.1, pm) ∈ data := by
  unfold hostFieldTimes at hm
  rw [List.mem_flatMap] at hm
  obtain ⟨hp, hhp, hin⟩ := hm
  rw [List.mem_flatMap] at hin
  obtain ⟨pf, hpf, hin2⟩ := hin
  rw [List.mem_map] at hin2
  obtain ⟨sf, hsf, heq⟩ := hin2
  have hh : hp.1 = ht.1 := congrArg Prod.fst heq
  exact ⟨hp.2, by rw [← hh]; exact hhp⟩

theorem findOldest_mem {data : Store} (hnem : noEmpty data = true)
    (hdata : data ≠ []) :
    ∃ h pm, findOldestDomain data = some h ∧ (h, pm) ∈ data := by
  obtain ⟨hp, t, rfl⟩ : ∃ hp t, data = hp :: t := by
    cases data with
    | nil => exact absurd rfl hdata
    | cons hp t => exact ⟨hp, t, rfl⟩
  rw [noEmpty_iff] at hnem
  obtain ⟨hpne, hin⟩ := hnem hp (List.mem_cons_self _ _)
  obtain ⟨pf, pt, hpf⟩ : ∃ pf pt, hp.2 = pf :: pt := by
    cases hv : hp.2 with
    | nil => exact absurd hv hpne
    | cons pf pt => exact ⟨pf, pt, rfl⟩
  obtain ⟨sf, st, hsf⟩ : ∃ sf st, pf.2 = sf :: st := by
    have := hin pf (by rw [hpf]; exact List.mem_cons_self _ _)
    cases hv : pf.2 with
    | nil => exact absurd hv this
    | cons sf st => exact ⟨sf, st, rfl⟩
  have hmem : (hp.1, sf.2.lastUpdated) ∈ hostFieldTimes (hp :: t) := by
    unfold hostFieldTimes
    rw [List.mem_flatMap]
    refine ⟨hp, List.mem_cons_self _ _, ?_⟩
    rw [List.mem_flatMap]
    refine ⟨pf, by rw [hpf]; exact List.mem_cons_self _ _, ?_⟩
    rw [List.mem_map]
    exact ⟨sf, by rw [hsf]; exact List.mem_cons_self _ _, rfl⟩
  obtain ⟨c, u, hcu⟩ : ∃ c u, hostFieldTimes (hp :: t) = c :: u := by
    cases hv : hostFieldTimes (hp :: t) with
    | nil => rw [hv] at hmem; exact absurd hmem (by simp)
    | cons c u => exact ⟨c, u, rfl⟩
  obtain ⟨r, hr, hcase⟩ := foldl_oldStep_some u c
  have hrmem : r ∈ hostFieldTimes (hp :: t) := by
    rw [hcu]
    rcases hcase with h1 | h1
    · exact h1 ▸ List.mem_cons_self _ _
    · exact List.mem_cons_of_mem _ h1
  have hfold : (hostFieldTimes (hp :: t)).foldl oldStep none = some r := by
    rw [hcu, List.foldl_cons]
    exact hr
  obtain ⟨pm, hpm⟩ := hostFieldTimes_host hrmem
  refine ⟨r.1, pm, ?_, hpm⟩
  unfold findOldestDomain
  rw [hfold]
  rfl

theorem hostsNE_alErase {s : Store} (k : String) (h : hostsNE s = true) :
    hostsNE (alErase k s) = true := by
  unfold hostsNE at h ⊢
  rw [List.all_eq_true] at h ⊢
  exact fun hp hhp => h _ (mem_alErase hhp)

theorem evictLoop_mono (ms : Nat) :
    ∀ (fuel : Nat) (data : Store) (evicted : Nat),
      evicted ≤ (evictLoop ms fuel data evicted).2 := by
  intro fuel
  induction fuel with
  | zero => intro data evicted; exact Nat.le_refl _
  | succ n ih =>
    intro data evicted
    unfold evictLoop
    split
    · cases hfind : findOldestDomain data with
      | none => exact Nat.le_refl _
      | some host =>
        dsimp only
        split
        · exact Nat.le_refl _
        · split
          · exact Nat.le_trans (Nat.le_succ _) (ih _ _)
          · exact Nat.le_succ _
    · exact Nat.le_refl _

theorem evictLoop_terminal (ms : Nat) (hms : pctGE90 ms = true) :
    ∀ (fuel : Nat) (data : Store) (evicted : Nat),
      noEmpty data = true → hostsNE data = true → fuel + evicted = 10 →
      (evictLoop ms fuel data evicted).2 = 10 ∨
      (evictLoop ms fuel data evicted).1 = [] := by
  intro fuel
  induction fuel with
  | zero =>
    intro data evicted _ _ hfe
    left
    unfold evictLoop
    omega
  | succ n ih =>
    intro data evicted hnem hne hfe
    have hguard : (pctGE90 ms && decide (evicted < 10)) = true := by
      rw [hms]
      simp only [Bool.true_and, decide_eq_true_iff]
      omega
    unfold evictLoop
    rw [hguard]
    dsimp only
    by_cases hdata : data = []
    · subst hdata
      right
      rfl
    · obtain ⟨h, pm, hfind, hmem⟩ := findOldest_mem hnem hdata
      rw [hfind]
      dsimp only
      have hhne : ¬ (h = "") := by
        unfold hostsNE at hne
        rw [List.all_eq_true] at hne
        have := hne _ hmem
        simpa using this
      rw [if_neg hhne, hms]
      simp only [if_true]
      exact ih (alErase h data) (evicted + 1) (noEmpty_alErase h hnem)
        (hostsNE_alErase h hne) (by omega)

theorem evictLoop_pos (ms : Nat) (hms : pctGE90 ms = true)
    (n : Nat) (data : Store) (evicted : Nat)
    (hnem : noEmpty data = true) (hne : hostsNE data = true)
    (hdata : data ≠ []) (hlt : evicted < 10) :
    evicted < (evictLoop ms (n + 1) data evicted).2 := by
  have hguard : (pctGE90 ms && decide (evicted < 10)) = true := by
    rw [hms]
    simp only [Bool.true_and, decide_eq_true_iff]
    exact hlt
  unfold evictLoop
  rw [hguard]
  dsimp only
  obtain ⟨h, pm, hfind, hmem⟩ := findOldest_mem hnem hdata
  rw [hfind]
  dsimp only
  have hhne : ¬ (h = "") := by
    unfold hostsNE at hne
    rw [List.all_eq_true] at hne
    have := hne _ hmem
    simpa using this
  rw [if_neg hhne, hms]
  simp only [if_true]
  exact Nat.lt_of_lt_of_le (Nat.lt_succ_self _) (evictLoop_mono ms n _ _)

end EvictionLemmas

section ClaimsEviction

/-- C3 as stated fails on the code: with usage measured at full capacity and a
single group whose key is the empty string, `findOldestDomain` returns `""`,
the falsy `if (!oldestDomain) break` stops the pass immediately, and the call
ends with usage still at or above 90% and 0 (not 10) groups evicted. -/
theorem ensureStorageSpace_stalls_on_empty_group_key :
    pctGE90 (fullMeasure emptyKeyStore) = true ∧
    (ensureStorageSpace fullMeasure emptyKeyStore).evicted ≠ 10 ∧
    pctGE90 (fullMeasure (ensureStorageSpace fullMeasure emptyKeyStore).store)
      = true := by
  decide

/-- C3 amended: provided every group key is nonempty, the store has no empty
containers, and the measurement reports the empty blob under threshold, a
quota-guard pass entered with measured usage at or above 90% ends with either
measured usage below 90% or exactly 10 groups evicted. -/
theorem ensureStorageSpace_eviction_monotonicity (measure : Store → Nat)
    (s : Store)
    (h1 : noEmpty s = true) (h2 : hostsNE s = true)
    (h3 : pctGE90 (measure []) = false) (h4 : pctGE90 (measure s) = true) :
    pctGE90 (measure (ensureStorageSpace measure s).store) = false ∨
    (ensureStorageSpace measure s).evicted = 10 := by
  by_cases hs : s = []
  · rw [hs] at h4
    rw [h4] at h3
    exact absurd h3 (by simp)
  · have hterm := evictLoop_terminal (measure s) h4 10 s 0 h1 h2 rfl
    have hpos := evictLoop_pos (measure s) h4 9 s 0 h1 h2 hs (by omega)
    have h0 : 0 < (evictLoop (measure s) 10 s 0).2 := hpos
    rw [ensure_above measure s h4, if_pos h0]
    rcases hterm with ht | ht
    · right
      exact ht
    · left
      dsimp only
      rw [ht]
      exact h3

end ClaimsEviction

section IdLemmas

theorem splitChar_ne_nil (sep : Char) (l : List Char) : splitChar sep l ≠ [] := by
  induction l with
  | nil => simp [splitChar]
  | cons c cs ih =>
    unfold splitChar
    by_cases hc : c = sep
    · simp [hc]
    · simp only [hc, if_false]
      cases hr : splitChar sep cs with
      | nil => simp
      | cons h t => simp

theorem splitChar_of_not_mem {sep : Char} {l : List Char} (h : sep ∉ l) :
    splitChar sep l = [l] := by
  induction l with
  | nil => rfl
  | cons c cs ih =>
    have hc : ¬ (c = sep) := fun hh => h (by simp [hh])
    have hcs : sep ∉ cs := fun hh => h (by simp [hh])
    unfold splitChar
    rw [ih hcs]
    simp [hc]

theorem splitChar_cons (sep c : Char) (cs : List Char) :
    splitChar sep (c :: cs) =
      if c = sep then [] :: splitChar sep cs
      else
        match splitChar sep cs with
        | [] => [[c]]
        | h :: t => (c :: h) :: t := rfl

theorem splitChar_append (sep : Char) (a b : List Char) :
    splitChar sep (a ++ sep :: b) = splitChar sep a ++ splitChar sep b := by
  induction a with
  | nil =>
    rw [List.nil_append, splitChar_cons]
    simp [show splitChar sep ([] : List Char) = [[]] from rfl]
  | cons c a2 ih =>
    rw [List.cons_append, splitChar_cons, splitChar_cons, ih]
    by_cases hc : c = sep
    · simp [hc]
    · simp only [hc, if_false]
      cases hr : splitChar sep a2 with
      | nil => exact absurd hr (splitChar_ne_nil sep a2)
      | cons h t => simp

theorem joinChar_splitChar (sep : Char) (l : List Char) :
    joinChar sep (splitChar sep l) = l := by
  induction l with
  | nil => rfl
  | cons c cs ih =>
    unfold splitChar
    by_cases hc : c = sep
    · simp only [hc, if_pos rfl]
      cases hr : splitChar sep cs with
      | nil => exact absurd hr (splitChar_ne_nil sep cs)
      | cons h t =>
        rw [hr] at ih
        unfold joinChar
        simp only [← ih]
        rfl
    · simp only [hc, if_false]
      cases hr : splitChar sep cs with
      | nil => exact absurd hr (splitChar_ne_nil sep cs)
      | cons h t =>
        rw [hr] at ih
        cases t with
        | nil =>
          unfold joinChar at ih ⊢
          rw [← ih]
        | cons t1 tt =>
          unfold joinChar at ih ⊢
          rw [← ih]
          rfl

theorem digitChar_spec (d : Nat) (hd : d < 10) :
    (digitChar d).toNat = 48 + d ∧ (digitChar d).isDigit = true ∧
    (digitChar d).isWhitespace = false ∧ digitChar d ≠ '-' ∧
    digitChar d ≠ '+' ∧ digitChar d ≠ '|' := by
  interval_cases d <;> exact ⟨by decide, by decide, by decide, by decide,
    by decide, by decide⟩

theorem natToCharsAux_digits :
    ∀ (fuel n : Nat) (c : Char), c ∈ natToCharsAux fuel n →
      ∃ d, d < 10 ∧ c = digitChar d := by
  intro fuel
  induction fuel with
  | zero => intro n c hc; simp [natToCharsAux] at hc
  | succ m ih =>
    intro n c hc
    unfold natToCharsAux at hc
    by_cases hn : n < 10
    · rw [if_pos hn] at hc
      simp at hc
      exact ⟨n, hn, hc⟩
    · rw [if_neg hn] at hc
      rcases List.mem_append.mp hc with h1 | h1
      · exact ih _ _ h1
      · simp at h1
        exact ⟨n % 10, Nat.mod_lt _ (by omega), h1⟩

theorem natToCharsAux_ne_nil (fuel n : Nat) (hf : 0 < fuel) :
    natToCharsAux fuel n ≠ [] := by
  cases fuel with
  | zero => omega
  | succ m =>
    unfold natToCharsAux
    by_cases hn : n < 10
    · simp [hn]
    · rw [if_neg hn]
      simp

theorem natToCharsAux_foldl :
    ∀ (fuel n : Nat), n < fuel → ∀ a : Nat,
      (natToCharsAux fuel n).foldl (fun x c => 10 * x + (c.toNat - 48)) a =
        a * 10 ^ (natToCharsAux fuel n).length + n := by
  intro fuel
  induction fuel with
  | zero => intro n hn; omega
  | succ m ih =>
    intro n hn a
    unfold natToCharsAux
    by_cases h10 : n < 10
    · rw [if_pos h10]
      simp only [List.foldl_cons, List.foldl_nil, List.length_cons,
        List.length_nil, pow_one, (digitChar_spec n h10).1]
      omega
    · rw [if_neg h10]
      have hq : n / 10 < m := by
        have h1 : n / 10 < n := Nat.div_lt_self (by omega) (by omega)
        omega
      have hmod : n % 10 < 10 := Nat.mod_lt _ (by omega)
      rw [List.foldl_append]
      simp only [List.foldl_cons, List.foldl_nil, (digitChar_spec _ hmod).1]
      rw [ih (n / 10) hq a]
      simp only [List.length_append, List.length_cons, List.length_nil]
      rw [pow_succ, ← mul_assoc]
      generalize a * 10 ^ (natToCharsAux m (n / 10)).length = x
      omega

theorem digitsVal_natToChars (n : Nat) : digitsVal (natToChars n) = n := by
  unfold digitsVal natToChars
  rw [natToCharsAux_foldl (n + 1) n (Nat.lt_succ_self n) 0]
  simp

theorem natToChars_ne_nil (n : Nat) : natToChars n ≠ [] :=
  natToCharsAux_ne_nil (n + 1) n (Nat.succ_pos n)

theorem natToChars_digits {n : Nat} {c : Char} (hc : c ∈ natToChars n) :
    ∃ d, d < 10 ∧ c = digitChar d :=
  natToCharsAux_digits (n + 1) n c hc

theorem natToChars_no_sep (n : Nat) : '|' ∉ natToChars n := by
  intro hmem
  obtain ⟨d, hd, heq⟩ := natToChars_digits hmem
  exact absurd heq.symm (digitChar_spec d hd).2.2.2.2.2

theorem takeWhile_eq_self {p : Char → Bool} {l : List Char}
    (h : ∀ c ∈ l, p c = true) : l.takeWhile p = l := by
  induction l with
  | nil => rfl
  | cons c cs ih =>
    rw [List.takeWhile_cons, h c (List.mem_cons_self _ _)]
    simp only [if_true]
    rw [ih fun x hx => h x (List.mem_cons_of_mem _ hx)]

theorem parseDigits_natToChars (n : Nat) :
    parseDigits (natToChars n) = some n := by
  unfold parseDigits
  dsimp only
  rw [takeWhile_eq_self fun c hc => by
    obtain ⟨d, hd, heq⟩ := natToChars_digits hc
    rw [heq]
    exact (digitChar_spec d hd).2.1]
  rw [isEmpty_eq_false_of_ne_nil (natToChars_ne_nil n)]
  simp only [Bool.false_eq_true, if_false]
  rw [digitsVal_natToChars]

theorem parseIntJS_natToChars (n : Nat) :
    parseIntJS (String.mk (natToChars n)) = some (n : Int) := by
  obtain ⟨c, cs, hcons⟩ : ∃ c cs, natToChars n = c :: cs := by
    cases hv : natToChars n with
    | nil => exact absurd hv (natToChars_ne_nil n)
    | cons c cs => exact ⟨c, cs, rfl⟩
  obtain ⟨d, hd, hc⟩ := natToChars_digits (by rw [hcons]; exact List.mem_cons_self c cs)
  have hspec := digitChar_spec d hd
  unfold parseIntJS
  have hdata : (String.mk (natToChars n)).data = natToChars n := rfl
  rw [hdata, hcons, List.dropWhile_cons]
  rw [show c.isWhitespace = false by rw [hc]; exact hspec.2.2.1]
  simp only [Bool.false_eq_true, if_false]
  rw [if_neg (by rw [hc]; exact hspec.2.2.2.1), if_neg (by rw [hc]; exact hspec.2.2.2.2.1)]
  rw [← hcons, parseDigits_natToChars]
  rfl

theorem mk_data (s : String) : String.mk s.data = s := rfl

theorem parseEntryId_mkEntryId (host path selector : String) (i : Nat)
    (hh : '|' ∉ host.data) (hp : '|' ∉ path.data) :
    parseEntryId (mkEntryId host path selector i) =
      { host := host, path := path, selector := selector,
        versionIndex := some (i : Int) } := by
  have hdata : (mkEntryId host path selector i).data =
      host.data ++ '|' :: (path.data ++ '|' :: (selector.data ++ '|' :: natToChars i)) := by
    simp [mkEntryId, String.data_append, show ("|" : String).data = ['|'] from rfl]
  have hsplit : splitChar '|' (mkEntryId host path selector i).data =
      host.data :: path.data :: (splitChar '|' selector.data ++ [natToChars i]) := by
    rw [hdata, splitChar_append, splitChar_append, splitChar_append,
      splitChar_of_not_mem hh, splitChar_of_not_mem hp,
      splitChar_of_not_mem (natToChars_no_sep i)]
    rfl
  unfold parseEntryId
  dsimp only
  rw [hsplit]
  have hl : host.data :: path.data :: (splitChar '|' selector.data ++ [natToChars i]) =
      (host.data :: path.data :: splitChar '|' selector.data) ++ [natToChars i] := by
    simp
  rw [hl, List.getLastD_concat, List.dropLast_concat]
  have hdrop : (host.data :: path.data :: splitChar '|' selector.data).drop 2 =
      splitChar '|' selector.data := rfl
  have hg0 : (host.data :: path.data :: splitChar '|' selector.data).getD 0
      "undefined".data = host.data := rfl
  have hg1 : (host.data :: path.data :: splitChar '|' selector.data).getD 1
      "undefined".data = path.data := rfl
  rw [hdrop, hg0, hg1, joinChar_splitChar, parseIntJS_natToChars,
    mk_data, mk_data, mk_data]

end IdLemmas

section ClaimsAddressing

/-- C4 as stated fails on the code: the single entry of the group named
`a|b` has id `a|b|p|s|0`, which parses back to host `a`, path `b` and
selector `p|s` instead of the quadruple that built it. -/
theorem entryId_roundtrip_fails_for_delimiter_in_group :
    ∃ e ∈ getAllEntriesFlat pipeKeyStore,
      parseEntryId e.id ≠
        { host := e.host, path := e.path, selector := e.selector,
          versionIndex := some (e.versionIndex : Int) } := by
  refine ⟨{ id := "a|b|p|s|0", host := "a|b", path := "p", selector := "s",
            label := "l", timestamp := 5, text := "t", versionIndex := 0 },
    ((List.mergeSort_perm (allEntries pipeKeyStore) entryLE).mem_iff).mpr
      (by decide), ?_⟩
  decide

/-- C4 amended: provided no group key and no subgroup key contains `|`, every
entry of the flat projection parses back to exactly the
`(group, subgroup, fieldId, versionIndex)` it was built from; the fieldId may
contain the delimiter, since the parser rejoins the middle parts. -/
theorem entryId_roundtrip (s : Store) (hk : noPipeKeys s = true) :
    ∀ e ∈ getAllEntriesFlat s,
      parseEntryId e.id =
        { host := e.host, path := e.path, selector := e.selector,
          versionIndex := some (e.versionIndex : Int) } := by
  intro e he
  have he2 : e ∈ allEntries s :=
    ((List.mergeSort_perm (allEntries s) entryLE).mem_iff).mp he
  unfold allEntries at he2
  rw [List.mem_flatMap] at he2
  obtain ⟨hp, hhp, h2⟩ := he2
  rw [List.mem_flatMap] at h2
  obtain ⟨pf, hpf, h3⟩ := h2
  rw [List.mem_flatMap] at h3
  obtain ⟨sf, hsf, h4⟩ := h3
  unfold fieldEntries at h4
  rw [List.mem_map] at h4
  obtain ⟨iv, hiv, heq⟩ := h4
  unfold noPipeKeys at hk
  rw [List.all_eq_true] at hk
  have hk1 := hk _ hhp
  rw [Bool.and_eq_true] at hk1
  have hh : '|' ∉ hp.1.data := by simpa using hk1.1
  have hkp := hk1.2
  rw [List.all_eq_true] at hkp
  have hpd : '|' ∉ pf.1.data := by simpa using hkp _ hpf
  subst heq
  exact parseEntryId_mkEntryId hp.1 pf.1 sf.1 iv.1 hh hpd

/-- Witness for the amended C4: a fieldId containing the delimiter still
round-trips. -/
theorem entryId_roundtrip_witness :
    parseEntryId "h|p|s|x|0" =
      { host := "h", path := "p", selector := "s|x", versionIndex := some 0 } := by
  have h := entryId_roundtrip [("h", [("p", [("s|x", ⟨"l", 5, [⟨5, "t"⟩]⟩)])])]
    (by decide)
    { id := "h|p|s|x|0", host := "h", path := "p", selector := "s|x",
      label := "l", timestamp := 5, text := "t", versionIndex := 0 }
    (((List.mergeSort_perm _ entryLE).mem_iff).mpr (by decide))
  exact h

/-- C5 as stated fails on the code: the id `h|p|s|-1` does not decode to an
in-range version index, yet `deleteEntryById` removes the field's last version
(`splice` interprets the negative start from the end of the array). -/
theorem deleteEntryById_invalid_index_mutates :
    deleteEntryById "h|p|s|-1" twoVersionStore ≠ twoVersionStore ∧
    getFieldData (deleteEntryById "h|p|s|-1" twoVersionStore) "h" "p" "s" =
      some ⟨"l", 1, [⟨1, "a"⟩]⟩ := by
  decide

/-- C5 amended: an id whose parsed `(group, subgroup, fieldId)` does not name
an existing record leaves the store unchanged; validation stops there, so an
id addressing an existing record with an out-of-range version index is not
rejected (a non-negative index past the end removes nothing, but a negative or
non-numeric index removes the last or first version). -/
theorem deleteEntryById_missing_key_noop (id : String) (s : Store)
    (h : getFieldData s (parseEntryId id).host (parseEntryId id).path
      (parseEntryId id).selector = none) :
    deleteEntryById id s = s := by
  unfold deleteEntryById
  dsimp only
  rw [h]

/-- Witness for the amended C5: an id naming an absent group is a no-op. -/
theorem deleteEntryById_missing_key_noop_witness :
    deleteEntryById "x|y|z|0" twoVersionStore = twoVersionStore :=
  deleteEntryById_missing_key_noop "x|y|z|0" twoVersionStore (by decide)

/-- Witness for the amended C3 at a concrete measurement and store. -/
theorem ensureStorageSpace_eviction_monotonicity_witness :
    pctGE90 (fullMeasure (ensureStorageSpace fullMeasure
        [("h", [("p", [("s", ⟨"l", 5, [⟨5, "t"⟩]⟩)])])]).store) = false ∨
    (ensureStorageSpace fullMeasure
        [("h", [("p", [("s", ⟨"l", 5, [⟨5, "t"⟩]⟩)])])]).evicted = 10 :=
  ensureStorageSpace_eviction_monotonicity fullMeasure
    [("h", [("p", [("s", ⟨"l", 5, [⟨5, "t"⟩]⟩)])])]
    (by decide) (by decide) (by decide) (by decide)

end ClaimsAddressing

end Lazarus
